import Mathlib

/-!
Verification of the Rw-Tools IP-translation panel against its specification.

The repository ships the presentation layer: a field-schema service
(IpFieldService) and a Vue handler (handleResult in IpTranslation.vue) that
submits a trimmed input string to the translate_ip boundary, maps the returned
record over the schema, filters empty values, and shows errors in a toast.
Those parts are embedded below directly from the source.  The translation
engine itself (parse, format, deriveSubnet) is not part of the visible
sources; where a claim concerns it, the definitions are modelled from the
spec and say so in their doc comments.
-/

/-- A JavaScript runtime value, as far as the handler's semantics need:
strings, integer numbers, booleans, null and undefined.  Indexing a record
with an absent key yields undefined. -/
inductive JSValue where
  | str (s : String)
  | num (n : Int)
  | jsBool (b : Bool)
  | nullV
  | undefinedV
deriving DecidableEq, Repr

/-- JavaScript truthiness for the modelled values: the empty string, zero,
false, null and undefined are falsy, everything else truthy. -/
def JSValue.truthy : JSValue → Bool
  | .str s => s ≠ ""
  | .num n => n ≠ 0
  | .jsBool b => b
  | .nullV => false
  | .undefinedV => false

/-- The JavaScript logical-or on values: a || b keeps a when a is truthy,
else yields b. -/
def jsOr (a b : JSValue) : JSValue :=
  if a.truthy then a else b

/-- One entry of the field schema: display key, engine field name, value. -/
structure IpField where
  key : String
  field : String
  value : JSValue
deriving DecidableEq, Repr

namespace IpFieldService

/-- Embedding of IpFieldService.getData: the literal twenty-entry schema list
the source returns, each with display key, engine field name, and an empty
string value. -/
def getData : List IpField :=
  [ IpField.mk "地址类型" "fieldType" (JSValue.str ""),
    IpField.mk "压缩地址" "comAddress" (JSValue.str ""),
    IpField.mk "扩展地址" "exAddress" (JSValue.str ""),
    IpField.mk "二进制地址" "binaryAddress" (JSValue.str ""),
    IpField.mk "子网" "subnet" (JSValue.str ""),
    IpField.mk "子网掩码" "subnetMask" (JSValue.str ""),
    IpField.mk "上一个地址" "prevAddress" (JSValue.str ""),
    IpField.mk "下一个地址" "nextAddress" (JSValue.str ""),
    IpField.mk "整数值" "intValue" (JSValue.str ""),
    IpField.mk "高低64位有符号数" "highLow64BitSignedNumber" (JSValue.str ""),
    IpField.mk "转为 IPv4" "toIpv4" (JSValue.str ""),
    IpField.mk "转为 IPv6" "toIpv6" (JSValue.str ""),
    IpField.mk "网络地址（开始ip）" "netWorkAddress" (JSValue.str ""),
    IpField.mk "网络地址（开始ip）整数值" "netWorkAddressIntValue" (JSValue.str ""),
    IpField.mk "网络地址（开始ip）高低64位有符号数" "netWorkAddressHighLow64BitSignedNumber" (JSValue.str ""),
    IpField.mk "网络地址（开始ip）二进制地址" "netWorkAddressBinaryAddress" (JSValue.str ""),
    IpField.mk "广播地址（结束ip）" "broadcastAddress" (JSValue.str ""),
    IpField.mk "广播地址（结束ip）整数值" "broadcastAddressIntValue" (JSValue.str ""),
    IpField.mk "广播地址（结束ip）高低64位有符号数" "broadcastAddressHighLow64BitSignedNumber" (JSValue.str ""),
    IpField.mk "广播地址（结束ip）二进制地址" "broadcastAddressBinaryAddress" (JSValue.str "") ]

/-- Embedding of IpFieldService.getFieldList: a pure delegation to getData. -/
def getFieldList : List IpField := getData

end IpFieldService

/-- Embedding of the success branch of handleResult (IpTranslation.vue lines
16 to 20): map the schema over the result record, replacing each value by
data[item.field] || the empty string, then drop the rows whose value is the
empty string.  The record is a total function into JSValue, with undefined
standing for an absent key. -/
def handleRows (data : String → JSValue) : List IpField :=
  (IpFieldService.getFieldList.map fun item =>
      IpField.mk item.key item.field (jsOr (data item.field) (JSValue.str ""))).filter
    fun item => item.value != JSValue.str ""

/-- A toast notification as the handler builds it. -/
structure ToastMsg where
  severity : String
  summary : String
  detail : String
  life : Nat
deriving DecidableEq, Repr

/-- Embedding of the catch branch of handleResult (IpTranslation.vue lines
22 to 24): an error toast whose detail is the error value from the boundary. -/
def errorToast (err : String) : ToastMsg :=
  ToastMsg.mk "error" "解析失败" err 1300

/-- One invocation of handleResult as a state transition: the previous
resultList is discarded (line 13 resets it to the empty list before the
engine is invoked), then either the computed rows replace it on success, or
it stays empty and an error toast is emitted on failure. -/
def handleResultStep (_prev : List IpField) (_input : String)
    (outcome : Except String (String → JSValue)) :
    List IpField × List ToastMsg :=
  match outcome with
  | .ok data => (handleRows data, [])
  | .error err => ([], [errorToast err])

/-- White-space characters removed by the JavaScript String trim method:
space, tab, line feed, carriage return, vertical tab, form feed, no-break
space and the byte-order mark cover every character this program can meet. -/
def isJsWhitespace (c : Char) : Bool :=
  c = ' ' || c = '\t' || c = '\n' || c = '\r' ||
  c = '\x0b' || c = '\x0c' || c = '\u00A0' || c = '\uFEFF'

/-- Drop leading and trailing white-space from a character list. -/
def trimChars (l : List Char) : List Char :=
  (((l.dropWhile isJsWhitespace).reverse).dropWhile isJsWhitespace).reverse

/-- The JavaScript String trim method on the modelled character level. -/
def jsTrim (s : String) : String :=
  String.mk (trimChars s.toList)

/-- Embedding of IpTranslation.vue lines 14 and 15: the handler overwrites
the bound input with its trimmed form and passes exactly that string to the
translate_ip boundary. -/
def submittedIp (input : String) : String :=
  jsTrim input

/-- The result record as the translate_ip boundary types it: a partial map
from field name to string value. -/
def recordOfStrings (data : String → JSValue) (f : String) : Option String :=
  match data f with
  | .str s => some s
  | _ => none

/-- A JavaScript record is string-valued when every key is either absent or
holds a string, which is what translate_ip returns on success. -/
def StringValued (data : String → JSValue) : Prop :=
  ∀ f, data f = JSValue.undefinedV ∨ ∃ s, data f = JSValue.str s

/-- The displayed row list as the spec words it: every schema entry whose
field name is present in the record with a non-empty value appears with that
value; entries absent from the record or mapped to the empty value are
omitted.  Stated over an Option-valued record to compare with handleRows. -/
def specRows (m : String → Option String) : List IpField :=
  IpFieldService.getData.filterMap fun item =>
    match m item.field with
    | none => none
    | some v => if v = "" then none else some (IpField.mk item.key item.field (JSValue.str v))

/-- Modelled from the spec: the address family enum of the missing engine's
CanonicalAddress data model. -/
inductive IpFamily where
  | IPv4
  | IPv6
deriving DecidableEq, Repr

/-- Modelled from the spec: bit width of each family, 32 or 128. -/
def familyWidth : IpFamily → Nat
  | .IPv4 => 32
  | .IPv6 => 128

/-- Modelled from the spec: CanonicalAddress, the engine's sole internal
representation, a family tag and an unsigned bit pattern. -/
structure CanonicalAddress where
  family : IpFamily
  bits : Nat
deriving DecidableEq, Repr

/-- The CanonicalAddress invariant: bits lies within the family's width. -/
def ValidAddress (a : CanonicalAddress) : Prop :=
  a.bits < 2 ^ familyWidth a.family

/-- The character for one digit value below sixteen, lowercase. -/
def digitCharOf (d : Nat) : Char :=
  match d with
  | 0 => '0' | 1 => '1' | 2 => '2' | 3 => '3' | 4 => '4'
  | 5 => '5' | 6 => '6' | 7 => '7' | 8 => '8' | 9 => '9'
  | 10 => 'a' | 11 => 'b' | 12 => 'c' | 13 => 'd' | 14 => 'e'
  | 15 => 'f' | _ => '*'

/-- The value of a decimal digit character. -/
def decCharVal (c : Char) : Option Nat :=
  if c = '0' then some 0
  else if c = '1' then some 1
  else if c = '2' then some 2
  else if c = '3' then some 3
  else if c = '4' then some 4
  else if c = '5' then some 5
  else if c = '6' then some 6
  else if c = '7' then some 7
  else if c = '8' then some 8
  else if c = '9' then some 9
  else none

/-- The value of a hexadecimal digit character, either case. -/
def hexCharVal (c : Char) : Option Nat :=
  match decCharVal c with
  | some d => some d
  | none =>
      if c = 'a' ∨ c = 'A' then some 10
      else if c = 'b' ∨ c = 'B' then some 11
      else if c = 'c' ∨ c = 'C' then some 12
      else if c = 'd' ∨ c = 'D' then some 13
      else if c = 'e' ∨ c = 'E' then some 14
      else if c = 'f' ∨ c = 'F' then some 15
      else none

/-- Little-endian base-b digits with explicit fuel, so that every rendering
below is structurally recursive. -/
def digitsFuel (b : Nat) : Nat → Nat → List Nat
  | 0, _ => []
  | fuel + 1, n => if n = 0 then [] else n % b :: digitsFuel b fuel (n / b)

/-- Little-endian base-b digits of n; n itself is always enough fuel. -/
def digitsLE (b n : Nat) : List Nat := digitsFuel b n n

/-- Big-endian decimal rendering of a natural number, no leading zeros. -/
def toDecChars (n : Nat) : List Char :=
  if n = 0 then ['0'] else ((digitsLE 10 n).map digitCharOf).reverse

/-- Big-endian lowercase hexadecimal rendering, no leading zeros. -/
def toHexChars (n : Nat) : List Char :=
  if n = 0 then ['0'] else ((digitsLE 16 n).map digitCharOf).reverse

/-- Parse a non-empty all-decimal character list as a natural number. -/
def parseDecNat (l : List Char) : Option Nat :=
  if l = [] then none
  else if l.all fun c => (decCharVal c).isSome then
    some (l.foldl (fun a c => 10 * a + (decCharVal c).getD 0) 0)
  else none

/-- Parse a non-empty all-hexadecimal character list as a natural number. -/
def parseHexNat (l : List Char) : Option Nat :=
  if l = [] then none
  else if l.all fun c => (hexCharVal c).isSome then
    some (l.foldl (fun a c => 16 * a + (hexCharVal c).getD 0) 0)
  else none

/-- Split a character list at every occurrence of the separator; n
separators yield n + 1 parts, empty parts included. -/
def splitOnChar (c : Char) : List Char → List (List Char)
  | [] => [[]]
  | x :: xs =>
    if x = c then [] :: splitOnChar c xs
    else
      match splitOnChar c xs with
      | [] => [[x]]
      | p :: ps => (x :: p) :: ps

/-- Join parts with a separator character between consecutive parts. -/
def intercalateChar (c : Char) : List (List Char) → List Char
  | [] => []
  | [p] => p
  | p :: ps => p ++ c :: intercalateChar c ps

/-- Split a part list at its first empty part, returning the parts strictly
before it and the parts strictly after it; none when no part is empty. -/
def splitAtFirstEmpty : List (List Char) → Option (List (List Char) × List (List Char))
  | [] => none
  | p :: ps =>
    if p = [] then some ([], ps)
    else
      match splitAtFirstEmpty ps with
      | none => none
      | some (a, b) => some (p :: a, b)

/-- The four octets of a 32-bit value, most significant first. -/
def toOctets (n : Nat) : List Nat :=
  [n / 16777216 % 256, n / 65536 % 256, n / 256 % 256, n % 256]

/-- Recombine octets, most significant first. -/
def fromOctets (l : List Nat) : Nat :=
  l.foldl (fun a o => 256 * a + o) 0

/-- Modelled from the spec: the Formatter's compressed (equal to expanded)
dotted-decimal IPv4 rendering. -/
def formatIpv4 (n : Nat) : List Char :=
  intercalateChar '.' ((toOctets n).map toDecChars)

/-- Dotted-decimal IPv4 syntax: exactly four non-empty decimal groups
separated by dots; group values are returned unchecked so the caller can
distinguish a syntax mismatch from an out-of-range octet. -/
def parseDotted (l : List Char) : Option (List Nat) :=
  let parts := splitOnChar '.' l
  if parts.length = 4 then
    match parts with
    | [a, b, c, d] =>
      match parseDecNat a, parseDecNat b, parseDecNat c, parseDecNat d with
      | some va, some vb, some vc, some vd => some [va, vb, vc, vd]
      | _, _, _, _ => none
    | _ => none
  else none

/-- A trailing embedded IPv4 inside an IPv6 literal: dotted syntax with all
octets in range, decoded to its 32-bit value. -/
def parseIpv4Embedded (l : List Char) : Option Nat :=
  match parseDotted l with
  | some vals => if vals.all fun v => v ≤ 255 then some (fromOctets vals) else none
  | none => none

/-- The eight 16-bit groups of a 128-bit value, most significant first. -/
def toGroups (n : Nat) : List Nat :=
  [n / 2 ^ 112 % 65536, n / 2 ^ 96 % 65536, n / 2 ^ 80 % 65536, n / 2 ^ 64 % 65536,
   n / 2 ^ 48 % 65536, n / 2 ^ 32 % 65536, n / 2 ^ 16 % 65536, n % 65536]

/-- Recombine 16-bit groups, most significant first. -/
def fromGroups (l : List Nat) : Nat :=
  l.foldl (fun a g => 65536 * a + g) 0

/-- Whether positions s up to s + len of the group list are all zero. -/
def isZeroRun (gs : List Nat) (s len : Nat) : Bool :=
  decide (s + len ≤ gs.length) && ((gs.drop s).take len).all fun g => g = 0

/-- Every run of at least two consecutive zero groups, enumerated by
increasing start position. -/
def candidateRuns (gs : List Nat) : List (Nat × Nat) :=
  (List.range (gs.length + 1)).flatMap fun s =>
    (List.range (gs.length + 1)).filterMap fun len =>
      if 2 ≤ len ∧ isZeroRun gs s len then some (s, len) else none

/-- The zero run the standard compression rule collapses: the longest run of
consecutive zero groups, leftmost on ties, none when no run of length at
least two exists. -/
def bestRun (gs : List Nat) : Option (Nat × Nat) :=
  (candidateRuns gs).foldl
    (fun best r =>
      match best with
      | none => some r
      | some b => if b.2 < r.2 then some r else some b)
    none

/-- Modelled from the spec: the Formatter's compressed IPv6 rendering, the
longest run of consecutive zero 16-bit groups collapsed to a double colon,
ties broken by the leftmost run. -/
def formatIpv6Com (n : Nat) : List Char :=
  let gs := toGroups n
  match bestRun gs with
  | none => intercalateChar ':' (gs.map toHexChars)
  | some (s, len) =>
      intercalateChar ':' ((gs.take s).map toHexChars) ++
        ':' :: ':' :: intercalateChar ':' ((gs.drop (s + len)).map toHexChars)

/-- One hexadecimal 16-bit group of an IPv6 literal: one to four hex digits. -/
def parseHexGroup (l : List Char) : Option Nat :=
  if l.length ≤ 4 then parseHexNat l else none

/-- Hexadecimal groups with no embedded IPv4 allowed (the side left of a
double colon). -/
def parseHexGroupList : List (List Char) → Option (List Nat)
  | [] => some []
  | p :: ps =>
    match parseHexGroup p, parseHexGroupList ps with
    | some g, some gs => some (g :: gs)
    | _, _ => none

/-- Hexadecimal groups whose final part may instead be a trailing embedded
IPv4, contributing two 16-bit groups. -/
def parseTailGroups : List (List Char) → Option (List Nat)
  | [] => some []
  | [last] =>
    if last.contains '.' then
      match parseIpv4Embedded last with
      | some n => some [n / 65536, n % 65536]
      | none => none
    else
      match parseHexGroup last with
      | some g => some [g]
      | none => none
  | p :: ps =>
    match parseHexGroup p, parseTailGroups ps with
    | some g, some gs => some (g :: gs)
    | _, _ => none

/-- The raw parts right of the first empty part: when the parts before it
are empty the literal starts with a double colon, so a second empty part
must follow; otherwise the remaining parts are taken as they stand. -/
def ipv6RightRaw (before after : List (List Char)) : Option (List (List Char)) :=
  if before.isEmpty then
    match after with
    | [] :: a2 => some a2
    | _ => none
  else some after

/-- The right-hand group parts: a lone trailing empty part marks a literal
ending in the double colon; otherwise no further empty part may appear. -/
def ipv6Right (rightRaw : List (List Char)) : Option (List (List Char)) :=
  if rightRaw = [[]] then some []
  else if rightRaw = [] then none
  else if rightRaw.contains [] then none
  else some rightRaw

/-- Assemble a compressed literal: both sides parsed, at most seven groups
in total, the double colon standing for the missing zero groups. -/
def ipv6Assemble (before right : List (List Char)) : Option Nat :=
  match parseHexGroupList before, parseTailGroups right with
  | some lgs, some rgs =>
      if lgs.length + rgs.length ≤ 7 then
        some (fromGroups (lgs ++ List.replicate (8 - lgs.length - rgs.length) 0 ++ rgs))
      else none
  | _, _ => none

/-- Modelled from the spec: textual-to-binary decoding of an IPv6 literal,
supporting the double-colon zero-run compression and an optional trailing
embedded IPv4.  Splits on colons; a plain literal needs exactly eight
groups, a compressed one at most seven, the double colon standing for the
missing zero groups. -/
def parseIpv6Chars (l : List Char) : Option Nat :=
  match splitAtFirstEmpty (splitOnChar ':' l) with
  | none =>
      match parseTailGroups (splitOnChar ':' l) with
      | some gs => if gs.length = 8 then some (fromGroups gs) else none
      | none => none
  | some (before, after) =>
      (ipv6RightRaw before after).bind fun rightRaw =>
        (ipv6Right rightRaw).bind fun right => ipv6Assemble before right

/-- Modelled from the spec: the Parser's error taxonomy. -/
inductive ParseError where
  | InvalidFormat
  | OutOfRange
deriving DecidableEq, Repr

/-- A plain integer literal, base ten, or base sixteen behind an 0x marker. -/
def parseIntChars (l : List Char) : Option Nat :=
  match l with
  | '0' :: 'x' :: rest => parseHexNat rest
  | _ => parseDecNat l

/-- Modelled from the spec: the Parser.  Trims surrounding white-space, then
applies the detection order: dotted-decimal IPv4 first (octets outside 0 to
255 are OutOfRange), else IPv6 when a colon is present, else a plain
integer whose family follows its magnitude; integers beyond 128 bits are
OutOfRange, anything else InvalidFormat. -/
def parse (input : String) : Except ParseError CanonicalAddress :=
  let l := trimChars input.toList
  match parseDotted l with
  | some vals =>
      if vals.all fun v => v ≤ 255 then .ok ⟨.IPv4, fromOctets vals⟩
      else .error .OutOfRange
  | none =>
      if l.contains ':' then
        match parseIpv6Chars l with
        | some n => .ok ⟨.IPv6, n⟩
        | none => .error .InvalidFormat
      else
        match parseIntChars l with
        | some n =>
            if n < 2 ^ 32 then .ok ⟨.IPv4, n⟩
            else if n < 2 ^ 128 then .ok ⟨.IPv6, n⟩
            else .error .OutOfRange
        | none => .error .InvalidFormat

/-- Modelled from the spec: the Formatter's compressed-address field, the
canonical shortest textual form of the address. -/
def comAddress (a : CanonicalAddress) : String :=
  match a.family with
  | .IPv4 => String.mk (formatIpv4 a.bits)
  | .IPv6 => String.mk (formatIpv6Com a.bits)

/-- Modelled from the spec: the Subnet Calculator's error taxonomy. -/
inductive SubnetError where
  | InvalidPrefix
  | Underflow
  | Overflow
deriving DecidableEq, Repr

/-- Modelled from the spec: SubnetContext, derived per request: the prefix
length, the mask of that many leading one-bits, the network address (bits
AND mask) and the broadcast address (bits OR the width-bounded complement
of the mask). -/
structure SubnetContext where
  prefixLen : Nat
  mask : Nat
  networkAddress : Nat
  broadcastAddress : Nat
deriving DecidableEq, Repr

/-- Modelled from the spec: the Subnet Calculator's deriveSubnet.  A missing
prefix length defaults to the family's full width; a prefix length beyond
the width is InvalidPrefix; the mask is prefixLen leading one-bits followed
by zero-bits within the family width. -/
def deriveSubnet (a : CanonicalAddress) (p : Option Nat) : Except SubnetError SubnetContext :=
  let w := familyWidth a.family
  let pl := p.getD w
  if w < pl then .error .InvalidPrefix
  else
    let mask := (2 ^ pl - 1) * 2 ^ (w - pl)
    .ok ⟨pl, mask, a.bits &&& mask, a.bits ||| ((2 ^ w - 1) ^^^ mask)⟩

section Theorems

/-- C1: the canonical field list returned by IpFieldService.getData carries
exactly the twenty engine field names, in exactly this order. -/
theorem c1_canonical_field_names :
    IpFieldService.getData.map (fun it => it.field) =
      ["fieldType", "comAddress", "exAddress", "binaryAddress", "subnet",
       "subnetMask", "prevAddress", "nextAddress", "intValue",
       "highLow64BitSignedNumber", "toIpv4", "toIpv6", "netWorkAddress",
       "netWorkAddressIntValue", "netWorkAddressHighLow64BitSignedNumber",
       "netWorkAddressBinaryAddress", "broadcastAddress",
       "broadcastAddressIntValue", "broadcastAddressHighLow64BitSignedNumber",
       "broadcastAddressBinaryAddress"] := by
  rfl

/-- C8: getFieldList is a pure delegation to getData, returning the very
same list. -/
theorem c8_getFieldList_eq_getData :
    IpFieldService.getFieldList = IpFieldService.getData := rfl

/-- C9: the twenty engine field names in the schema are pairwise distinct,
and so are the twenty display keys. -/
theorem c9_fields_and_keys_distinct :
    (IpFieldService.getData.map fun it => it.field).Nodup ∧
      (IpFieldService.getData.map fun it => it.key).Nodup := by
  constructor <;> decide

/-- C4: the failure branch of handleResult shows the boundary's error value
verbatim: the toast's detail text is exactly the error string. -/
theorem c4_error_shown_verbatim (err : String) :
    (errorToast err).detail = err := rfl

/-- C5: no state survives a call: the outcome of handleResult does not
depend on the previous result list (it is reset before the engine runs),
and every schema entry starts with an empty string value, so nothing from
an earlier translation can leak into a later one. -/
theorem c5_stateless (prev1 prev2 : List IpField) (input1 input2 : String)
    (out : Except String (String → JSValue)) (it : IpField)
    (hit : it ∈ IpFieldService.getData) :
    handleResultStep prev1 input1 out = handleResultStep prev2 input2 out ∧
      it.value = JSValue.str "" := by
  refine ⟨rfl, ?_⟩
  have h : ∀ x ∈ IpFieldService.getData, x.value = JSValue.str "" := by decide
  exact h it hit

/-- C5 witness at a concrete previous state, input and outcome. -/
theorem c5_stateless_witness :
    handleResultStep [IpField.mk "k" "f" (JSValue.str "v")] "a" (Except.error "boom") =
        handleResultStep [] "b" (Except.error "boom") ∧
      (IpField.mk "地址类型" "fieldType" (JSValue.str "")).value = JSValue.str "" :=
  c5_stateless _ _ _ _ _ _ (by decide)

end Theorems

/-- Unfolding the row computation over an arbitrary schema list: against a
string-valued record, mapping then filtering coincides with the spec's
filterMap, entry by entry. -/
theorem rows_filter_eq_filterMap (data : String → JSValue) (h : StringValued data) :
    ∀ l : List IpField,
      ((l.map fun item =>
          IpField.mk item.key item.field (jsOr (data item.field) (JSValue.str ""))).filter
        fun item => item.value != JSValue.str "") =
      l.filterMap fun item =>
        match recordOfStrings data item.field with
        | none => none
        | some v => if v = "" then none
            else some (IpField.mk item.key item.field (JSValue.str v)) := by
  intro l
  induction l with
  | nil => rfl
  | cons it rest ih =>
      rcases h it.field with hu | ⟨s, hs⟩
      · have hv : jsOr (data it.field) (JSValue.str "") = JSValue.str "" := by
          rw [hu]
          rfl
        have hr : recordOfStrings data it.field = none := by
          simp [recordOfStrings, hu]
        rw [List.map_cons, List.filter_cons, List.filterMap_cons, hv, hr]
        simpa using ih
      · have hv : jsOr (data it.field) (JSValue.str "") =
            (if s = "" then JSValue.str "" else JSValue.str s) := by
          rw [hs]
          by_cases hse : s = "" <;> simp [jsOr, JSValue.truthy, hse]
        have hr : recordOfStrings data it.field = some s := by
          simp [recordOfStrings, hs]
        rw [List.map_cons, List.filter_cons, List.filterMap_cons, hv, hr]
        by_cases hse : s = "" <;> simpa [hse] using ih

/-- C2: against every string-valued record the boundary can return, the
displayed rows are exactly the schema entries whose field is present with a
non-empty value, each carrying the value the record gives it; entries
absent from the record or mapped to the empty value are excluded. -/
theorem c2_rows_match_spec (data : String → JSValue) (h : StringValued data) :
    handleRows data = specRows (recordOfStrings data) := by
  unfold handleRows specRows IpFieldService.getFieldList
  exact rows_filter_eq_filterMap data h _

/-- C2 witness: a concrete record holding one non-empty string. -/
theorem c2_rows_match_spec_witness :
    handleRows (fun f => if f = "intValue" then JSValue.str "1" else JSValue.undefinedV) =
      specRows (recordOfStrings
        (fun f => if f = "intValue" then JSValue.str "1" else JSValue.undefinedV)) := by
  refine c2_rows_match_spec _ ?_
  intro f
  by_cases h : f = "intValue"
  · exact Or.inr ⟨"1", by simp [h]⟩
  · exact Or.inl (by simp [h])

/-- The schema's field names are pairwise distinct (shared helper). -/
theorem getFieldList_fields_nodup :
    (IpFieldService.getFieldList.map fun it => it.field).Nodup := by
  decide

/-- C10: the displayed rows always keep the schema order, whatever the
record's own key order: the field names of handleRows form a subsequence of
the schema's field-name list; and a schema entry whose record value is any
falsy value, not only the empty string, is filtered out of the rows. -/
theorem c10_schema_order_and_falsy_filter (data : String → JSValue) :
    ((handleRows data).map fun it => it.field).Sublist
        (IpFieldService.getFieldList.map fun it => it.field) ∧
      ∀ it, it ∈ IpFieldService.getFieldList → (data it.field).truthy = false →
        it.field ∉ (handleRows data).map fun it => it.field := by
  constructor
  · have h1 : (handleRows data).Sublist
        (IpFieldService.getFieldList.map fun item =>
          IpField.mk item.key item.field (jsOr (data item.field) (JSValue.str ""))) :=
      List.filter_sublist _
    have h2 := h1.map fun it => it.field
    rwa [List.map_map] at h2
  · intro it hmem htruthy hin
    obtain ⟨row, hrow, hfe⟩ := List.mem_map.mp hin
    have hrow' := List.mem_filter.mp hrow
    obtain ⟨it2, hit2, hf2⟩ := List.mem_map.mp hrow'.1
    have hfields : it2.field = it.field := by
      rw [← hf2] at hfe
      exact hfe
    have heq : it2 = it :=
      List.inj_on_of_nodup_map getFieldList_fields_nodup hit2 hmem hfields
    subst heq
    have hval : row.value = JSValue.str "" := by
      rw [← hf2]
      simp [jsOr, hfields ▸ htruthy]
    have := hrow'.2
    rw [hval] at this
    simp at this

/-- C10 witness: a record assigning every field the falsy number zero
produces no rows at all. -/
theorem c10_schema_order_and_falsy_filter_witness :
    ((handleRows fun _ => JSValue.num 0).map fun it => it.field).Sublist
        (IpFieldService.getFieldList.map fun it => it.field) ∧
      "fieldType" ∉ (handleRows fun _ => JSValue.num 0).map fun it => it.field := by
  refine ⟨(c10_schema_order_and_falsy_filter _).1, ?_⟩
  exact (c10_schema_order_and_falsy_filter _).2
    (IpField.mk "地址类型" "fieldType" (JSValue.str "")) (by decide) (by decide)

/-- The first element surviving a dropWhile fails the predicate. -/
theorem head?_dropWhile_not {α : Type} (p : α → Bool) :
    ∀ (l : List α) (c : α), (l.dropWhile p).head? = some c → p c = false := by
  intro l
  induction l with
  | nil => intro c h; simp at h
  | cons x xs ih =>
      intro c h
      by_cases hx : p x = true
      · rw [List.dropWhile_cons_of_pos hx] at h
        exact ih c h
      · rw [List.dropWhile_cons_of_neg hx] at h
        simp at h
        rw [← h]
        simpa using hx

/-- dropWhile keeps a suffix, so a non-empty result keeps the last element. -/
theorem getLast?_dropWhile_eq {α : Type} (p : α → Bool) :
    ∀ (l : List α) (c : α), (l.dropWhile p).getLast? = some c → l.getLast? = some c := by
  intro l
  induction l with
  | nil => intro c h; simp at h
  | cons x xs ih =>
      intro c h
      by_cases hx : p x = true
      · rw [List.dropWhile_cons_of_pos hx] at h
        have hxs : xs ≠ [] := by
          rintro rfl
          simp at h
        obtain ⟨y, ys, rfl⟩ := List.exists_cons_of_ne_nil hxs
        rw [List.getLast?_cons_cons]
        exact ih c h
      · rw [List.dropWhile_cons_of_neg hx] at h
        exact h

/-- C3: the handler submits exactly the trimmed input to the translate_ip
boundary, and the submitted string carries no leading or trailing
white-space. -/
theorem c3_caller_trims (input : String) :
    submittedIp input = jsTrim input ∧
      (∀ c, (submittedIp input).toList.head? = some c → isJsWhitespace c = false) ∧
      (∀ c, (submittedIp input).toList.getLast? = some c → isJsWhitespace c = false) := by
  refine ⟨rfl, ?_, ?_⟩
  · intro c h
    have h2 : (trimChars input.toList).head? = some c := h
    rw [trimChars, List.head?_reverse] at h2
    have h3 := getLast?_dropWhile_eq isJsWhitespace _ c h2
    rw [List.getLast?_reverse] at h3
    exact head?_dropWhile_not isJsWhitespace _ c h3
  · intro c h
    have h2 : (trimChars input.toList).getLast? = some c := h
    rw [trimChars, List.getLast?_reverse] at h2
    exact head?_dropWhile_not isJsWhitespace _ c h2

/-- C3 witness at a concrete padded input. -/
theorem c3_caller_trims_witness :
    submittedIp "  ::1 " = jsTrim "  ::1 " ∧
      isJsWhitespace ':' = false ∧ isJsWhitespace '1' = false :=
  ⟨(c3_caller_trims "  ::1 ").1,
   (c3_caller_trims "  ::1 ").2.1 ':' (by decide),
   (c3_caller_trims "  ::1 ").2.2 '1' (by decide)⟩

/-- C7: whenever deriveSubnet succeeds on a valid address, the derived
context brackets the address: networkAddress is at most the address bits,
which are at most broadcastAddress, under unsigned ordering. -/
theorem c7_subnet_bounds (a : CanonicalAddress) (p : Option Nat) (ctx : SubnetContext)
    (_hv : ValidAddress a) (hd : deriveSubnet a p = .ok ctx) :
    ctx.networkAddress ≤ a.bits ∧ a.bits ≤ ctx.broadcastAddress := by
  simp only [deriveSubnet] at hd
  split at hd
  · exact absurd hd (by simp)
  · have hctx : ctx = ⟨(p.getD (familyWidth a.family)),
        (2 ^ (p.getD (familyWidth a.family)) - 1) *
          2 ^ (familyWidth a.family - p.getD (familyWidth a.family)),
        a.bits &&& (2 ^ (p.getD (familyWidth a.family)) - 1) *
          2 ^ (familyWidth a.family - p.getD (familyWidth a.family)),
        a.bits ||| ((2 ^ familyWidth a.family - 1) ^^^
          (2 ^ (p.getD (familyWidth a.family)) - 1) *
            2 ^ (familyWidth a.family - p.getD (familyWidth a.family)))⟩ := by
      injection hd with h
      exact h.symm
    subst hctx
    refine ⟨Nat.and_le_left, ?_⟩
    refine Nat.le_of_testBit ?_
    intro i hbit
    simp [Nat.testBit_or, hbit]

/-- C7 witness at a concrete host address and prefix length. -/
theorem c7_subnet_bounds_witness :
    SubnetContext.networkAddress ⟨24, 4294967040, 2886847744, 2886847999⟩ ≤ 2886847766 ∧
      2886847766 ≤ SubnetContext.broadcastAddress ⟨24, 4294967040, 2886847744, 2886847999⟩ :=
  c7_subnet_bounds ⟨.IPv4, 2886847766⟩ (some 24) ⟨24, 4294967040, 2886847744, 2886847999⟩
    (by norm_num [ValidAddress, familyWidth]) (by rfl)

/-- With fuel at least n, the fuelled digit extraction agrees with
Nat.digits. -/
theorem digitsFuel_eq_digits (b : Nat) (hb : 2 ≤ b) :
    ∀ fuel n, n ≤ fuel → digitsFuel b fuel n = Nat.digits b n := by
  intro fuel
  induction fuel with
  | zero =>
      intro n hn
      have h0 : n = 0 := by omega
      subst h0
      simp [digitsFuel]
  | succ f ih =>
      intro n hn
      by_cases h0 : n = 0
      · subst h0
        simp [digitsFuel]
      · have hstep : digitsFuel b (f + 1) n = n % b :: digitsFuel b f (n / b) := by
          simp [digitsFuel, h0]
        have hdiv : n / b ≤ f := by
          have := Nat.div_lt_self (Nat.pos_of_ne_zero h0) (by omega : 1 < b)
          omega
        rw [hstep, ih (n / b) hdiv,
          Nat.digits_def' (by omega : 1 < b) (Nat.pos_of_ne_zero h0)]

/-- digitsLE agrees with Nat.digits for every base of at least two. -/
theorem digitsLE_eq (b n : Nat) (hb : 2 ≤ b) : digitsLE b n = Nat.digits b n :=
  digitsFuel_eq_digits b hb n n le_rfl

/-- Reading back the character of a hexadecimal digit value. -/
theorem hexCharVal_digitCharOf : ∀ d, d < 16 → hexCharVal (digitCharOf d) = some d := by
  decide

/-- Reading back the character of a decimal digit value. -/
theorem decCharVal_digitCharOf : ∀ d, d < 10 → decCharVal (digitCharOf d) = some d := by
  decide

/-- Digit characters are not separators and not white-space. -/
theorem digitCharOf_props : ∀ d, d < 16 →
    digitCharOf d ≠ ':' ∧ digitCharOf d ≠ '.' ∧ isJsWhitespace (digitCharOf d) = false := by
  decide

/-- Reading digit characters back big-endian recovers the base-b value. -/
theorem foldr_val_map_digits (b : Nat) (val : Char → Option Nat)
    (hval : ∀ d, d < b → val (digitCharOf d) = some d) :
    ∀ ds : List Nat, (∀ d ∈ ds, d < b) →
      List.foldr (fun c a => b * a + (val c).getD 0) 0 (ds.map digitCharOf) =
        Nat.ofDigits b ds := by
  intro ds
  induction ds with
  | nil => intro _; simp [Nat.ofDigits_nil]
  | cons d rest ih =>
      intro h
      have hd : d < b := h d (by simp)
      have hrest : ∀ x ∈ rest, x < b := fun x hx => h x (by simp [hx])
      simp only [List.map_cons, List.foldr_cons, ih hrest, hval d hd,
        Nat.ofDigits_cons, Option.getD_some]
      omega

/-- Parsing the decimal rendering of n yields n back. -/
theorem parseDecNat_toDecChars (n : Nat) : parseDecNat (toDecChars n) = some n := by
  by_cases h0 : n = 0
  · subst h0
    decide
  · rw [toDecChars, if_neg h0, digitsLE_eq 10 n (by omega)]
    have hmem : ∀ c ∈ ((Nat.digits 10 n).map digitCharOf).reverse,
        (decCharVal c).isSome := by
      intro c hc
      rw [List.mem_reverse] at hc
      obtain ⟨d, hd, rfl⟩ := List.mem_map.mp hc
      rw [decCharVal_digitCharOf d (Nat.digits_lt_base (by omega) hd)]
      rfl
    have hne : ((Nat.digits 10 n).map digitCharOf).reverse ≠ [] := by
      simp [Nat.digits_ne_nil_iff_ne_zero, h0]
    rw [parseDecNat, if_neg hne, if_pos (by simpa using List.all_eq_true.mpr hmem)]
    rw [List.foldl_reverse]
    have := foldr_val_map_digits 10 decCharVal decCharVal_digitCharOf (Nat.digits 10 n)
      (fun d hd => Nat.digits_lt_base (by omega) hd)
    simpa [this] using congrArg some (Nat.ofDigits_digits 10 n)

/-- Parsing the hexadecimal rendering of n yields n back. -/
theorem parseHexNat_toHexChars (n : Nat) : parseHexNat (toHexChars n) = some n := by
  by_cases h0 : n = 0
  · subst h0
    decide
  · rw [toHexChars, if_neg h0, digitsLE_eq 16 n (by omega)]
    have hmem : ∀ c ∈ ((Nat.digits 16 n).map digitCharOf).reverse,
        (hexCharVal c).isSome := by
      intro c hc
      rw [List.mem_reverse] at hc
      obtain ⟨d, hd, rfl⟩ := List.mem_map.mp hc
      rw [hexCharVal_digitCharOf d (Nat.digits_lt_base (by omega) hd)]
      rfl
    have hne : ((Nat.digits 16 n).map digitCharOf).reverse ≠ [] := by
      simp [Nat.digits_ne_nil_iff_ne_zero, h0]
    rw [parseHexNat, if_neg hne, if_pos (by simpa using List.all_eq_true.mpr hmem)]
    rw [List.foldl_reverse]
    have := foldr_val_map_digits 16 hexCharVal hexCharVal_digitCharOf (Nat.digits 16 n)
      (fun d hd => Nat.digits_lt_base (by omega) hd)
    simpa [this] using congrArg some (Nat.ofDigits_digits 16 n)

/-- Every character of a decimal rendering is a digit character. -/
theorem mem_toDecChars (n : Nat) (c : Char) (hc : c ∈ toDecChars n) :
    ∃ d, d < 10 ∧ c = digitCharOf d := by
  rw [toDecChars] at hc
  by_cases h0 : n = 0
  · rw [if_pos h0] at hc
    simp at hc
    exact ⟨0, by omega, hc⟩
  · rw [if_neg h0, digitsLE_eq 10 n (by omega), List.mem_reverse] at hc
    obtain ⟨d, hd, rfl⟩ := List.mem_map.mp hc
    exact ⟨d, Nat.digits_lt_base (by omega) hd, rfl⟩

/-- Every character of a hexadecimal rendering is a digit character. -/
theorem mem_toHexChars (n : Nat) (c : Char) (hc : c ∈ toHexChars n) :
    ∃ d, d < 16 ∧ c = digitCharOf d := by
  rw [toHexChars] at hc
  by_cases h0 : n = 0
  · rw [if_pos h0] at hc
    simp at hc
    exact ⟨0, by omega, hc⟩
  · rw [if_neg h0, digitsLE_eq 16 n (by omega), List.mem_reverse] at hc
    obtain ⟨d, hd, rfl⟩ := List.mem_map.mp hc
    exact ⟨d, Nat.digits_lt_base (by omega) hd, rfl⟩

/-- Renderings are never empty. -/
theorem toDecChars_ne_nil (n : Nat) : toDecChars n ≠ [] := by
  rw [toDecChars]
  by_cases h0 : n = 0
  · simp [h0]
  · rw [if_neg h0, digitsLE_eq 10 n (by omega)]
    simp [Nat.digits_ne_nil_iff_ne_zero, h0]

/-- Hexadecimal renderings are never empty. -/
theorem toHexChars_ne_nil (n : Nat) : toHexChars n ≠ [] := by
  rw [toHexChars]
  by_cases h0 : n = 0
  · simp [h0]
  · rw [if_neg h0, digitsLE_eq 16 n (by omega)]
    simp [Nat.digits_ne_nil_iff_ne_zero, h0]

/-- A value below b to the k has at most k base-b digits. -/
theorem digits_length_le_of_lt_pow {b n k : Nat} (hb : 1 < b) (h : n < b ^ k) :
    (Nat.digits b n).length ≤ k := by
  by_cases h0 : n = 0
  · simp [h0]
  · have h1 := Nat.base_pow_length_digits_le b n hb h0
    have h2 : b * n < b * b ^ k := by
      have hb0 : 0 < b := by omega
      exact Nat.mul_lt_mul_of_le_of_lt (le_refl b) h hb0
    have h3 : b ^ (Nat.digits b n).length < b ^ (k + 1) := by
      calc b ^ (Nat.digits b n).length ≤ b * n := h1
        _ < b * b ^ k := h2
        _ = b ^ (k + 1) := by rw [pow_succ, Nat.mul_comm]
    have h4 := (Nat.pow_lt_pow_iff_right hb).mp h3
    omega

/-- A 16-bit group renders to at most four hexadecimal characters. -/
theorem toHexChars_length_le (g : Nat) (hg : g < 65536) : (toHexChars g).length ≤ 4 := by
  rw [toHexChars]
  by_cases h0 : g = 0
  · simp [h0]
  · rw [if_neg h0, digitsLE_eq 16 g (by omega)]
    simp only [List.length_reverse, List.length_map]
    exact digits_length_le_of_lt_pow (by omega) (by omega : g < 16 ^ 4)

/-- Decimal digit values are below ten. -/
theorem decCharVal_lt (c : Char) : (decCharVal c).getD 0 < 10 := by
  unfold decCharVal
  split_ifs <;> decide

/-- Hexadecimal digit values are below sixteen. -/
theorem hexCharVal_lt (c : Char) : (hexCharVal c).getD 0 < 16 := by
  unfold hexCharVal
  split
  · rename_i d hd
    have h10 := decCharVal_lt c
    rw [hd] at h10
    simp at h10 ⊢
    omega
  · split_ifs <;> decide

/-- The big-endian read-back of digit values stays below the base power. -/
theorem foldl_base_lt (b : Nat) (val : Char → Nat) :
    ∀ (l : List Char), (∀ c ∈ l, val c < b) →
      ∀ acc, l.foldl (fun a c => b * a + val c) acc < (acc + 1) * b ^ l.length := by
  intro l
  induction l with
  | nil => intro _ acc; simp
  | cons c cs ih =>
      intro h acc
      have hc : val c < b := h c (by simp)
      have hb : 1 ≤ b := by omega
      have hcs : ∀ x ∈ cs, val x < b := fun x hx => h x (by simp [hx])
      have h1 := ih hcs (b * acc + val c)
      calc (c :: cs).foldl (fun a c => b * a + val c) acc
          = cs.foldl (fun a c => b * a + val c) (b * acc + val c) := by simp
        _ < (b * acc + val c + 1) * b ^ cs.length := h1
        _ ≤ (b * (acc + 1)) * b ^ cs.length := by
            have : b * acc + val c + 1 ≤ b * (acc + 1) := by
              have := Nat.mul_le_mul_left b (Nat.le_refl (acc + 1))
              nlinarith
            exact Nat.mul_le_mul_right _ this
        _ = (acc + 1) * b ^ (c :: cs).length := by
            simp [List.length_cons, pow_succ]
            ring

/-- A successful parseHexNat is bounded by sixteen to the length. -/
theorem parseHexNat_lt (l : List Char) (n : Nat) (h : parseHexNat l = some n) :
    n < 16 ^ l.length := by
  rw [parseHexNat] at h
  split at h
  · exact absurd h (by simp)
  · split at h
    · have hn : l.foldl (fun a c => 16 * a + (hexCharVal c).getD 0) 0 = n := by
        injection h
      have := foldl_base_lt 16 (fun c => (hexCharVal c).getD 0) l
        (fun c _ => hexCharVal_lt c) 0
      omega
    · exact absurd h (by simp)

/-- A successful parseHexGroup fits in sixteen bits. -/
theorem parseHexGroup_lt (l : List Char) (g : Nat) (h : parseHexGroup l = some g) :
    g < 65536 := by
  rw [parseHexGroup] at h
  split at h
  · have h1 := parseHexNat_lt l g h
    have h2 : (16 : Nat) ^ l.length ≤ 16 ^ 4 := Nat.pow_le_pow_right (by omega) (by omega)
    omega
  · exact absurd h (by simp)

/-- Splitting never returns an empty part list. -/
theorem splitOnChar_ne_nil (c : Char) (l : List Char) : splitOnChar c l ≠ [] := by
  induction l with
  | nil => simp [splitOnChar]
  | cons x xs ih =>
      rw [splitOnChar]
      by_cases hx : x = c
      · simp [hx]
      · rw [if_neg hx]
        cases h : splitOnChar c xs with
        | nil => simp
        | cons p ps => simp

/-- Splitting distributes over a separator occurrence. -/
theorem splitOnChar_append (c : Char) (ys : List Char) :
    ∀ xs, splitOnChar c (xs ++ c :: ys) = splitOnChar c xs ++ splitOnChar c ys := by
  intro xs
  induction xs with
  | nil => simp [splitOnChar]
  | cons x xs ih =>
      by_cases hx : x = c
      · subst hx
        rw [List.cons_append, splitOnChar, if_pos rfl, ih, splitOnChar, if_pos rfl]
        rfl
      · rw [List.cons_append, splitOnChar, if_neg hx, ih, splitOnChar, if_neg hx]
        cases h : splitOnChar c xs with
        | nil => exact absurd h (splitOnChar_ne_nil c xs)
        | cons q qs => simp

/-- A separator-free list splits to itself alone. -/
theorem splitOnChar_of_not_mem (c : Char) (l : List Char) (h : c ∉ l) :
    splitOnChar c l = [l] := by
  induction l with
  | nil => rfl
  | cons x xs ih =>
      have hx : ¬x = c := by
        rintro rfl
        exact h (by simp)
      have hxs : c ∉ xs := fun hc => h (by simp [hc])
      rw [splitOnChar, if_neg hx, ih hxs]

/-- Splitting inverts joining when no part holds the separator. -/
theorem splitOnChar_intercalate (c : Char) :
    ∀ parts : List (List Char), parts ≠ [] → (∀ p ∈ parts, c ∉ p) →
      splitOnChar c (intercalateChar c parts) = parts := by
  intro parts
  induction parts with
  | nil => intro h _; exact absurd rfl h
  | cons p ps ih =>
      intro _ hall
      cases ps with
      | nil =>
          simp only [intercalateChar]
          exact splitOnChar_of_not_mem c p (hall p (by simp))
      | cons q qs =>
          simp only [intercalateChar]
          rw [splitOnChar_append, splitOnChar_of_not_mem c p (hall p (by simp)),
            ih (by simp) (fun r hr => hall r (by simp [hr]))]
          rfl

/-- With no empty part present, the search for one fails. -/
theorem splitAtFirstEmpty_of_not_mem (ps : List (List Char)) (h : [] ∉ ps) :
    splitAtFirstEmpty ps = none := by
  induction ps with
  | nil => rfl
  | cons p rest ih =>
      have hp : ¬p = [] := by
        rintro rfl
        exact h (by simp)
      rw [splitAtFirstEmpty, if_neg hp, ih (fun hc => h (by simp [hc]))]

/-- The first empty part splits the list around it. -/
theorem splitAtFirstEmpty_append (B : List (List Char)) :
    ∀ A, [] ∉ A → splitAtFirstEmpty (A ++ [] :: B) = some (A, B) := by
  intro A
  induction A with
  | nil => intro _; simp [splitAtFirstEmpty]
  | cons p rest ih =>
      intro h
      have hp : ¬p = [] := by
        rintro rfl
        exact h (by simp)
      rw [List.cons_append, splitAtFirstEmpty, if_neg hp, ih (fun hc => h (by simp [hc]))]

/-- Members of a joined list are the separator or members of some part. -/
theorem mem_intercalateChar (c : Char) :
    ∀ (parts : List (List Char)) (x : Char), x ∈ intercalateChar c parts →
      x = c ∨ ∃ p ∈ parts, x ∈ p := by
  intro parts
  induction parts with
  | nil => intro x hx; simp [intercalateChar] at hx
  | cons p ps ih =>
      intro x hx
      cases ps with
      | nil =>
          right
          exact ⟨p, by simp, by simpa [intercalateChar] using hx⟩
      | cons q qs =>
          simp only [intercalateChar] at hx
          rcases List.mem_append.mp hx with h1 | h2
          · right
            exact ⟨p, by simp, h1⟩
          · rcases List.mem_cons.mp h2 with h3 | h4
            · left
              exact h3
            · rcases ih x h4 with h5 | ⟨r, hr, hxr⟩
              · left
                exact h5
              · right
                exact ⟨r, by simp [List.mem_cons.mp hr], hxr⟩

/-- The separator occurs in any join of at least two parts. -/
theorem sep_mem_intercalateChar (c : Char) (p q : List Char) (qs : List (List Char)) :
    c ∈ intercalateChar c (p :: q :: qs) := by
  simp only [intercalateChar]
  exact List.mem_append.mpr (Or.inr (by simp))

/-- Octet recombination inverts octet extraction on 32-bit values. -/
theorem fromOctets_toOctets (n : Nat) (h : n < 2 ^ 32) : fromOctets (toOctets n) = n := by
  simp only [toOctets, fromOctets, List.foldl]
  omega

/-- Extracted octets are in range. -/
theorem toOctets_all_le (n : Nat) : ∀ v ∈ toOctets n, v ≤ 255 := by
  simp only [toOctets, List.mem_cons, List.not_mem_nil, or_false]
  rintro v (rfl | rfl | rfl | rfl) <;> omega

/-- No separator or white-space occurs inside a decimal rendering. -/
theorem toDecChars_clean (n : Nat) (c : Char) (hc : c ∈ toDecChars n) :
    c ≠ ':' ∧ c ≠ '.' ∧ isJsWhitespace c = false := by
  obtain ⟨d, hd, rfl⟩ := mem_toDecChars n c hc
  exact digitCharOf_props d (by omega)

/-- No separator or white-space occurs inside a hexadecimal rendering. -/
theorem toHexChars_clean (n : Nat) (c : Char) (hc : c ∈ toHexChars n) :
    c ≠ ':' ∧ c ≠ '.' ∧ isJsWhitespace c = false := by
  obtain ⟨d, hd, rfl⟩ := mem_toHexChars n c hc
  exact digitCharOf_props d hd

/-- Dotted parsing inverts the dotted-decimal formatter. -/
theorem parseDotted_formatIpv4 (n : Nat) :
    parseDotted (formatIpv4 n) = some (toOctets n) := by
  have hsplit : splitOnChar '.' (intercalateChar '.' ((toOctets n).map toDecChars)) =
      (toOctets n).map toDecChars := by
    refine splitOnChar_intercalate '.' _ (by simp [toOctets]) ?_
    intro p hp hc
    obtain ⟨v, _, rfl⟩ := List.mem_map.mp hp
    exact (toDecChars_clean v '.' hc).2.1 rfl
  rw [formatIpv4]
  simp only [parseDotted]
  rw [hsplit]
  simp [toOctets, parseDecNat_toDecChars]

/-- A 16-bit rendering never holds a dot. -/
theorem toHexChars_contains_dot (g : Nat) : (toHexChars g).contains '.' = false := by
  have hnd : '.' ∉ toHexChars g := fun hc => (toHexChars_clean g '.' hc).2.1 rfl
  simp [List.contains, List.elem_eq_mem, hnd]

/-- Parsing a mapped list of in-range hexadecimal groups (left of a double
colon) recovers the groups. -/
theorem parseHexGroupList_map (L : List Nat) (h : ∀ g ∈ L, g < 65536) :
    parseHexGroupList (L.map toHexChars) = some L := by
  induction L with
  | nil => rfl
  | cons g gs ih =>
      have hg : parseHexGroup (toHexChars g) = some g := by
        rw [parseHexGroup, if_pos (toHexChars_length_le g (h g (by simp)))]
        exact parseHexNat_toHexChars g
      simp only [List.map_cons, parseHexGroupList, hg,
        ih (fun x hx => h x (by simp [hx]))]

/-- Parsing a mapped list of in-range hexadecimal groups (with the trailing
embedded IPv4 rule idle) recovers the groups. -/
theorem parseTailGroups_map (L : List Nat) (h : ∀ g ∈ L, g < 65536) :
    parseTailGroups (L.map toHexChars) = some L := by
  induction L with
  | nil => rfl
  | cons g gs ih =>
      have hg : parseHexGroup (toHexChars g) = some g := by
        rw [parseHexGroup, if_pos (toHexChars_length_le g (h g (by simp)))]
        exact parseHexNat_toHexChars g
      cases gs with
      | nil =>
          simp only [List.map_cons, List.map_nil, parseTailGroups,
            toHexChars_contains_dot g, Bool.false_eq_true, if_false, hg]
      | cons g2 gs2 =>
          have ih2 := ih (fun x hx => h x (by simp [hx]))
          simp only [List.map_cons, parseTailGroups, hg] at ih2 ⊢
          rw [ih2]

/-- Group recombination inverts group extraction on 128-bit values. -/
theorem fromGroups_toGroups (n : Nat) (h : n < 2 ^ 128) : fromGroups (toGroups n) = n := by
  simp only [toGroups, fromGroups, List.foldl]
  omega

/-- Extracted groups fit in sixteen bits. -/
theorem toGroups_all_lt (n : Nat) : ∀ g ∈ toGroups n, g < 65536 := by
  simp only [toGroups, List.mem_cons, List.not_mem_nil, or_false]
  rintro g (rfl | rfl | rfl | rfl | rfl | rfl | rfl | rfl) <;> omega

/-- There are always eight groups. -/
theorem toGroups_length (n : Nat) : (toGroups n).length = 8 := rfl

/-- The result of the best-run fold is a member of the candidate list. -/
theorem foldl_pick_mem :
    ∀ (l : List (Nat × Nat)) (acc : Option (Nat × Nat)) (r : Nat × Nat),
      l.foldl (fun best r => match best with
        | none => some r
        | some b => if b.2 < r.2 then some r else some b) acc = some r →
      r ∈ l ∨ acc = some r := by
  intro l
  induction l with
  | nil => intro acc r h; right; exact h
  | cons x xs ih =>
      intro acc r h
      rw [List.foldl_cons] at h
      rcases ih _ r h with hmem | hacc
      · left
        simp [hmem]
      · cases acc with
        | none =>
            left
            have : x = r := by injection hacc
            simp [this]
        | some b =>
            by_cases hb : b.2 < x.2
            · rw [show (match some b with
                  | none => some x
                  | some bb => if bb.2 < x.2 then some x else some bb) =
                    some x by simp [hb]] at hacc
              left
              have : x = r := by injection hacc
              simp [this]
            · rw [show (match some b with
                  | none => some x
                  | some bb => if bb.2 < x.2 then some x else some bb) =
                    some b by simp [hb]] at hacc
              right
              exact hacc

/-- Whatever run the compression rule chooses is a genuine zero run of
length at least two inside the group list. -/
theorem bestRun_spec (gs : List Nat) (s len : Nat) (h : bestRun gs = some (s, len)) :
    2 ≤ len ∧ s + len ≤ gs.length ∧
      ((gs.drop s).take len).all (fun g => g = 0) = true := by
  have hmem : (s, len) ∈ candidateRuns gs := by
    rcases foldl_pick_mem _ none (s, len) h with hm | hc
    · exact hm
    · exact absurd hc (by simp)
  rw [candidateRuns] at hmem
  obtain ⟨s2, _, hmem2⟩ := List.mem_flatMap.mp hmem
  obtain ⟨len2, _, heq⟩ := List.mem_filterMap.mp hmem2
  split_ifs at heq with hcond
  have hps : (s2, len2) = (s, len) := by injection heq
  have hs : s2 = s := congrArg Prod.fst hps
  have hl : len2 = len := congrArg Prod.snd hps
  subst hs
  subst hl
  obtain ⟨h2, hz⟩ := hcond
  rw [isZeroRun, Bool.and_eq_true, decide_eq_true_iff] at hz
  exact ⟨h2, hz.1, hz.2⟩

/-- A zero run inside the group list decomposes it into a prefix, a zero
block, and a suffix. -/
theorem zeroRun_decomp (gs : List Nat) (s len : Nat) (hsl : s + len ≤ gs.length)
    (hz : ((gs.drop s).take len).all (fun g => g = 0) = true) :
    gs = gs.take s ++ List.replicate len 0 ++ gs.drop (s + len) := by
  have h1 : (gs.drop s).take len = List.replicate len 0 := by
    rw [List.eq_replicate_iff]
    constructor
    · rw [List.length_take, List.length_drop]
      omega
    · intro b hb
      have := List.all_eq_true.mp hz b hb
      simpa using this
  calc gs = gs.take s ++ gs.drop s := (List.take_append_drop s gs).symm
    _ = gs.take s ++ ((gs.drop s).take len ++ (gs.drop s).drop len) :=
        congrArg (gs.take s ++ ·) (List.take_append_drop len (gs.drop s)).symm
    _ = gs.take s ++ (List.replicate len 0 ++ gs.drop (s + len)) := by
        rw [h1, List.drop_drop]
    _ = gs.take s ++ List.replicate len 0 ++ gs.drop (s + len) := by
        rw [List.append_assoc]

/-- Trimming a list free of white-space is the identity. -/
theorem trimChars_eq_self (l : List Char) (h : ∀ c ∈ l, isJsWhitespace c = false) :
    trimChars l = l := by
  have hd : ∀ m : List Char, (∀ c ∈ m, isJsWhitespace c = false) →
      m.dropWhile isJsWhitespace = m := by
    intro m hm
    cases m with
    | nil => rfl
    | cons x xs => exact List.dropWhile_cons_of_neg (by simp [hm x (by simp)])
  rw [trimChars, hd l h, hd _ (fun c hc => h c (by rwa [List.mem_reverse] at hc)),
    List.reverse_reverse]

/-- No rendered group contains the colon separator. -/
theorem map_toHexChars_no_colon (L : List Nat) :
    ∀ p ∈ L.map toHexChars, ':' ∉ p := by
  intro p hp hc
  obtain ⟨g, _, rfl⟩ := List.mem_map.mp hp
  exact (toHexChars_clean g ':' hc).1 rfl

/-- No rendered group is empty. -/
theorem map_toHexChars_no_nil (L : List Nat) : [] ∉ L.map toHexChars := by
  intro hc
  obtain ⟨g, _, hg⟩ := List.mem_map.mp hc
  exact toHexChars_ne_nil g hg

/-- A mapped group list never looks like the lone empty part. -/
theorem map_toHexChars_ne_single_nil (L : List Nat) : L.map toHexChars ≠ [[]] := by
  intro hc
  have : ([] : List Char) ∈ L.map toHexChars := by rw [hc]; simp
  exact map_toHexChars_no_nil L this

/-- A mapped group list never contains the empty part. -/
theorem map_toHexChars_contains_nil (L : List Nat) :
    (L.map toHexChars).contains [] = false := by
  simp [List.contains, List.elem_eq_mem, map_toHexChars_no_nil L]

/-- Parsing a compressed IPv6 rendering: the double colon expands to the
zero groups missing between the left and right group lists. -/
theorem parseIpv6_compressed (L R : List Nat)
    (hL : ∀ g ∈ L, g < 65536) (hR : ∀ g ∈ R, g < 65536)
    (hlen : L.length + R.length ≤ 7) :
    parseIpv6Chars (intercalateChar ':' (L.map toHexChars) ++
        ':' :: ':' :: intercalateChar ':' (R.map toHexChars)) =
      some (fromGroups (L ++ List.replicate (8 - L.length - R.length) 0 ++ R)) := by
  have hsplit2 : splitOnChar ':' (':' :: intercalateChar ':' (R.map toHexChars)) =
      [] :: splitOnChar ':' (intercalateChar ':' (R.map toHexChars)) := by
    rw [splitOnChar, if_pos rfl]
  have hsplitR : R ≠ [] → splitOnChar ':' (intercalateChar ':' (R.map toHexChars)) =
      R.map toHexChars := fun hRne =>
    splitOnChar_intercalate ':' _ (by simpa using hRne) (map_toHexChars_no_colon R)
  have hsplitL : L ≠ [] → splitOnChar ':' (intercalateChar ':' (L.map toHexChars)) =
      L.map toHexChars := fun hLne =>
    splitOnChar_intercalate ':' _ (by simpa using hLne) (map_toHexChars_no_colon L)
  have hwhole : splitOnChar ':' (intercalateChar ':' (L.map toHexChars) ++
      ':' :: ':' :: intercalateChar ':' (R.map toHexChars)) =
      splitOnChar ':' (intercalateChar ':' (L.map toHexChars)) ++
        [] :: splitOnChar ':' (intercalateChar ':' (R.map toHexChars)) := by
    rw [splitOnChar_append, hsplit2]
  rcases eq_or_ne L [] with rfl | hLne
  · rcases eq_or_ne R [] with rfl | hRne
    · -- a bare double colon: all eight groups are zero
      simp only [List.map_nil, intercalateChar, List.nil_append] at hwhole ⊢
      rw [parseIpv6Chars]
      simp only [hwhole]
      rfl
    · -- right groups only
      obtain ⟨r0, Rtl, rfl⟩ := List.exists_cons_of_ne_nil hRne
      simp only [List.map_nil, intercalateChar, List.nil_append] at hwhole ⊢
      rw [hsplitR (by simp)] at hwhole
      rw [show splitOnChar ':' ([] : List Char) = [[]] from rfl,
        List.singleton_append] at hwhole
      rw [parseIpv6Chars]
      simp only [List.map_cons] at hwhole ⊢
      rw [hwhole]
      have h1 : splitAtFirstEmpty ([] :: [] :: (toHexChars r0 :: Rtl.map toHexChars)) =
          some ([], [] :: (toHexChars r0 :: Rtl.map toHexChars)) := by
        rw [splitAtFirstEmpty, if_pos rfl]
      rw [h1]
      have hne0 : toHexChars r0 ≠ [] := toHexChars_ne_nil r0
      have h2 : (toHexChars r0 :: Rtl.map toHexChars) ≠ [[]] := by
        intro hc
        exact hne0 (List.cons_eq_cons.mp hc).1
      have h3 : (toHexChars r0 :: Rtl.map toHexChars) ≠ [] := by simp
      have h4 : (toHexChars r0 :: Rtl.map toHexChars).contains [] = false := by
        have h4a := map_toHexChars_contains_nil (r0 :: Rtl)
        simpa only [List.map_cons] using h4a
      have h5 : parseTailGroups (toHexChars r0 :: Rtl.map toHexChars) =
          some (r0 :: Rtl) := by
        have h5a := parseTailGroups_map (r0 :: Rtl) hR
        simpa only [List.map_cons] using h5a
      show (ipv6RightRaw [] ([] :: toHexChars r0 :: Rtl.map toHexChars)).bind
          (fun rightRaw => (ipv6Right rightRaw).bind fun right =>
            ipv6Assemble [] right) = _
      rw [show ipv6RightRaw [] ([] :: (toHexChars r0 :: Rtl.map toHexChars)) =
          some (toHexChars r0 :: Rtl.map toHexChars) from rfl, Option.some_bind]
      rw [ipv6Right, if_neg h2, if_neg h3, h4]
      simp only [Bool.false_eq_true, if_false]
      rw [Option.some_bind, ipv6Assemble]
      simp only [show parseHexGroupList ([] : List (List Char)) = some [] from rfl, h5]
      rw [if_pos (by simpa using hlen)]
      have harith : 8 - (([] : List Nat)).length - (r0 :: Rtl).length = 7 - Rtl.length := by
        simp only [List.length_nil, List.length_cons]
        omega
      simp [harith]
  · -- groups on the left of the double colon
    obtain ⟨l0, Ltl, rfl⟩ := List.exists_cons_of_ne_nil hLne
    rw [hsplitL (by simp)] at hwhole
    rcases eq_or_ne R [] with rfl | hRne
    · -- left groups only, double colon at the end
      simp only [List.map_nil, intercalateChar, List.append_nil] at hwhole ⊢
      rw [show splitOnChar ':' ([] : List Char) = [[]] from rfl] at hwhole
      rw [parseIpv6Chars]
      simp only [List.map_cons] at hwhole ⊢
      rw [hwhole]
      have h1 : splitAtFirstEmpty ((toHexChars l0 :: Ltl.map toHexChars) ++ [] :: [[]]) =
          some (toHexChars l0 :: Ltl.map toHexChars, [[]]) := by
        have h1a := splitAtFirstEmpty_append [[]] ((l0 :: Ltl).map toHexChars)
          (map_toHexChars_no_nil (l0 :: Ltl))
        simpa only [List.map_cons] using h1a
      rw [h1]
      have h5 : parseHexGroupList (toHexChars l0 :: Ltl.map toHexChars) =
          some (l0 :: Ltl) := by
        have h5a := parseHexGroupList_map (l0 :: Ltl) hL
        simpa only [List.map_cons] using h5a
      show (ipv6RightRaw (toHexChars l0 :: Ltl.map toHexChars) [[]]).bind
          (fun rightRaw => (ipv6Right rightRaw).bind fun right =>
            ipv6Assemble (toHexChars l0 :: Ltl.map toHexChars) right) = _
      rw [show ipv6RightRaw (toHexChars l0 :: Ltl.map toHexChars) [[]] = some [[]] from rfl,
        Option.some_bind, show ipv6Right [[]] = some [] from rfl, Option.some_bind,
        ipv6Assemble, h5]
      simp only [show parseTailGroups ([] : List (List Char)) = some [] from rfl]
      rw [if_pos (by simpa using hlen)]
      have harith : 8 - (l0 :: Ltl).length - (([] : List Nat)).length = 7 - Ltl.length := by
        simp only [List.length_nil, List.length_cons]
        omega
      simp [harith]
    · -- groups on both sides
      obtain ⟨r0, Rtl, rfl⟩ := List.exists_cons_of_ne_nil hRne
      rw [hsplitR (by simp)] at hwhole
      rw [parseIpv6Chars]
      simp only [List.map_cons] at hwhole ⊢
      rw [hwhole]
      have h1 : splitAtFirstEmpty ((toHexChars l0 :: Ltl.map toHexChars) ++
          [] :: (toHexChars r0 :: Rtl.map toHexChars)) =
          some (toHexChars l0 :: Ltl.map toHexChars,
            toHexChars r0 :: Rtl.map toHexChars) := by
        have h1a := splitAtFirstEmpty_append ((r0 :: Rtl).map toHexChars)
          ((l0 :: Ltl).map toHexChars) (map_toHexChars_no_nil (l0 :: Ltl))
        simpa only [List.map_cons] using h1a
      rw [h1]
      have hne0 : toHexChars r0 ≠ [] := toHexChars_ne_nil r0
      have h2 : (toHexChars r0 :: Rtl.map toHexChars) ≠ [[]] := by
        intro hc
        exact hne0 (List.cons_eq_cons.mp hc).1
      have h3 : (toHexChars r0 :: Rtl.map toHexChars) ≠ [] := by simp
      have h4 : (toHexChars r0 :: Rtl.map toHexChars).contains [] = false := by
        have h4a := map_toHexChars_contains_nil (r0 :: Rtl)
        simpa only [List.map_cons] using h4a
      have h5 : parseHexGroupList (toHexChars l0 :: Ltl.map toHexChars) =
          some (l0 :: Ltl) := by
        have h5a := parseHexGroupList_map (l0 :: Ltl) hL
        simpa only [List.map_cons] using h5a
      have h6 : parseTailGroups (toHexChars r0 :: Rtl.map toHexChars) =
          some (r0 :: Rtl) := by
        have h6a := parseTailGroups_map (r0 :: Rtl) hR
        simpa only [List.map_cons] using h6a
      show (ipv6RightRaw (toHexChars l0 :: Ltl.map toHexChars)
            (toHexChars r0 :: Rtl.map toHexChars)).bind
          (fun rightRaw => (ipv6Right rightRaw).bind fun right =>
            ipv6Assemble (toHexChars l0 :: Ltl.map toHexChars) right) = _
      rw [show ipv6RightRaw (toHexChars l0 :: Ltl.map toHexChars)
          (toHexChars r0 :: Rtl.map toHexChars) =
          some (toHexChars r0 :: Rtl.map toHexChars) from rfl, Option.some_bind]
      rw [ipv6Right, if_neg h2, if_neg h3, h4]
      simp only [Bool.false_eq_true, if_false]
      rw [Option.some_bind, ipv6Assemble]
      simp only [h5, h6]
      rw [if_pos (by simpa using hlen)]

/-- Parsing an uncompressed eight-group rendering recovers the groups. -/
theorem parseIpv6_plain (gs : List Nat) (hg : ∀ g ∈ gs, g < 65536)
    (hlen : gs.length = 8) :
    parseIpv6Chars (intercalateChar ':' (gs.map toHexChars)) = some (fromGroups gs) := by
  have hsne : gs ≠ [] := by
    rintro rfl
    simp at hlen
  have hsplit : splitOnChar ':' (intercalateChar ':' (gs.map toHexChars)) =
      gs.map toHexChars :=
    splitOnChar_intercalate ':' _ (by simpa using hsne) (map_toHexChars_no_colon gs)
  rw [parseIpv6Chars]
  simp only [hsplit, splitAtFirstEmpty_of_not_mem _ (map_toHexChars_no_nil gs),
    parseTailGroups_map gs hg]
  rw [if_pos hlen]

/-- Parsing the compressed rendering of a 128-bit value recovers it. -/
theorem parseIpv6_format (n : Nat) (h : n < 2 ^ 128) :
    parseIpv6Chars (formatIpv6Com n) = some n := by
  rw [formatIpv6Com]
  cases hbr : bestRun (toGroups n) with
  | none =>
      rw [parseIpv6_plain (toGroups n) (toGroups_all_lt n) (toGroups_length n),
        fromGroups_toGroups n h]
  | some r =>
      obtain ⟨s, len⟩ := r
      obtain ⟨h2, hsl, hz⟩ := bestRun_spec (toGroups n) s len hbr
      rw [toGroups_length] at hsl
      have hdecomp := zeroRun_decomp (toGroups n) s len (by rw [toGroups_length]; omega) hz
      have hL : ∀ g ∈ (toGroups n).take s, g < 65536 :=
        fun g hg => toGroups_all_lt n g (List.mem_of_mem_take hg)
      have hR : ∀ g ∈ (toGroups n).drop (s + len), g < 65536 :=
        fun g hg => toGroups_all_lt n g (List.mem_of_mem_drop hg)
      have hlen : ((toGroups n).take s).length + ((toGroups n).drop (s + len)).length ≤ 7 := by
        rw [List.length_take, List.length_drop, toGroups_length]
        omega
      rw [parseIpv6_compressed _ _ hL hR hlen]
      have hcount : 8 - ((toGroups n).take s).length -
          ((toGroups n).drop (s + len)).length = len := by
        rw [List.length_take, List.length_drop, toGroups_length]
        omega
      rw [hcount, ← hdecomp, fromGroups_toGroups n h]

/-- Every character of a compressed IPv6 rendering is a colon or a digit
character. -/
theorem mem_formatIpv6Com (n : Nat) (c : Char) (hc : c ∈ formatIpv6Com n) :
    c = ':' ∨ ∃ d, d < 16 ∧ c = digitCharOf d := by
  rw [formatIpv6Com] at hc
  have hpart : ∀ (L : List Nat), c ∈ intercalateChar ':' (L.map toHexChars) →
      c = ':' ∨ ∃ d, d < 16 ∧ c = digitCharOf d := by
    intro L hmem
    rcases mem_intercalateChar ':' _ c hmem with hcc | ⟨p, hp, hcp⟩
    · exact Or.inl hcc
    · obtain ⟨g, _, rfl⟩ := List.mem_map.mp hp
      exact Or.inr (mem_toHexChars g c hcp)
  cases hbr : bestRun (toGroups n) with
  | none =>
      rw [hbr] at hc
      exact hpart (toGroups n) hc
  | some r =>
      obtain ⟨s, len⟩ := r
      rw [hbr] at hc
      rcases List.mem_append.mp hc with h1 | h2
      · exact hpart _ h1
      · rcases List.mem_cons.mp h2 with rfl | h3
        · exact Or.inl rfl
        · rcases List.mem_cons.mp h3 with rfl | h4
          · exact Or.inl rfl
          · exact hpart _ h4

/-- A compressed IPv6 rendering always holds a colon. -/
theorem colon_mem_formatIpv6Com (n : Nat) : ':' ∈ formatIpv6Com n := by
  rw [formatIpv6Com]
  cases hbr : bestRun (toGroups n) with
  | none =>
      obtain ⟨a, b, rest, h8⟩ : ∃ a b rest, (toGroups n).map toHexChars = a :: b :: rest :=
        ⟨_, _, _, rfl⟩
      rw [h8]
      exact sep_mem_intercalateChar ':' _ _ _
  | some r =>
      obtain ⟨s, len⟩ := r
      exact List.mem_append.mpr (Or.inr (by simp))

/-- A compressed IPv6 rendering holds neither dots nor white-space. -/
theorem formatIpv6Com_clean (n : Nat) :
    '.' ∉ formatIpv6Com n ∧ ∀ c ∈ formatIpv6Com n, isJsWhitespace c = false := by
  constructor
  · intro hc
    rcases mem_formatIpv6Com n '.' hc with h1 | ⟨d, hd, h2⟩
    · exact absurd h1 (by decide)
    · exact (digitCharOf_props d hd).2.1 h2.symm
  · intro c hc
    rcases mem_formatIpv6Com n c hc with rfl | ⟨d, hd, rfl⟩
    · decide
    · exact (digitCharOf_props d hd).2.2

/-- Dotted parsing fails on any dot-free input. -/
theorem parseDotted_no_dot (l : List Char) (h : '.' ∉ l) : parseDotted l = none := by
  rw [parseDotted]
  simp only [splitOnChar_of_not_mem '.' l h]
  rfl

/-- Reparsing the engine's compressed rendering of a valid IPv6 address
recovers the address exactly. -/
theorem parse_comAddress_v6 (n : Nat) (h : n < 2 ^ 128) :
    parse (comAddress ⟨.IPv6, n⟩) = .ok ⟨.IPv6, n⟩ := by
  have hclean := formatIpv6Com_clean n
  have htoList : (comAddress ⟨.IPv6, n⟩).toList = formatIpv6Com n := rfl
  rw [parse, htoList, trimChars_eq_self _ hclean.2,
    parseDotted_no_dot _ hclean.1]
  have hcontains : (formatIpv6Com n).contains ':' = true := by
    simp [List.contains, List.elem_eq_mem, colon_mem_formatIpv6Com n]
  rw [if_pos hcontains, parseIpv6_format n h]

/-- Every character of a dotted-decimal rendering is a dot or a digit. -/
theorem mem_formatIpv4 (n : Nat) (c : Char) (hc : c ∈ formatIpv4 n) :
    c = '.' ∨ ∃ d, d < 10 ∧ c = digitCharOf d := by
  rw [formatIpv4] at hc
  rcases mem_intercalateChar '.' _ c hc with hcc | ⟨p, hp, hcp⟩
  · exact Or.inl hcc
  · obtain ⟨g, _, rfl⟩ := List.mem_map.mp hp
    exact Or.inr (mem_toDecChars g c hcp)

/-- A dotted-decimal rendering holds no white-space. -/
theorem formatIpv4_clean (n : Nat) : ∀ c ∈ formatIpv4 n, isJsWhitespace c = false := by
  intro c hc
  rcases mem_formatIpv4 n c hc with rfl | ⟨d, hd, rfl⟩
  · decide
  · exact (digitCharOf_props d (by omega)).2.2

/-- Reparsing the engine's dotted rendering of a valid IPv4 address
recovers the address exactly. -/
theorem parse_comAddress_v4 (n : Nat) (h : n < 2 ^ 32) :
    parse (comAddress ⟨.IPv4, n⟩) = .ok ⟨.IPv4, n⟩ := by
  have htoList : (comAddress ⟨.IPv4, n⟩).toList = formatIpv4 n := rfl
  rw [parse, htoList, trimChars_eq_self _ (formatIpv4_clean n), parseDotted_formatIpv4 n]
  have hall : (toOctets n).all (fun v => v ≤ 255) = true :=
    List.all_eq_true.mpr fun v hv => by simpa using toOctets_all_le n v hv
  simp only [hall]
  rw [if_pos (by simp [hall]), fromOctets_toOctets n h]

/-- The big-endian group fold stays below the base power. -/
theorem foldl_groups_lt (b : Nat) :
    ∀ (l : List Nat), (∀ g ∈ l, g < b) →
      ∀ acc, l.foldl (fun a g => b * a + g) acc < (acc + 1) * b ^ l.length := by
  intro l
  induction l with
  | nil => intro _ acc; simp
  | cons g gs ih =>
      intro h acc
      have hg : g < b := h g (by simp)
      have hgs : ∀ x ∈ gs, x < b := fun x hx => h x (by simp [hx])
      have h1 := ih hgs (b * acc + g)
      calc (g :: gs).foldl (fun a g => b * a + g) acc
          = gs.foldl (fun a g => b * a + g) (b * acc + g) := by simp
        _ < (b * acc + g + 1) * b ^ gs.length := h1
        _ ≤ (b * (acc + 1)) * b ^ gs.length := by
            have : b * acc + g + 1 ≤ b * (acc + 1) := by nlinarith
            exact Nat.mul_le_mul_right _ this
        _ = (acc + 1) * b ^ (g :: gs).length := by
            simp [List.length_cons, pow_succ]
            ring

/-- A group list of in-range groups recombines below the base power. -/
theorem fromGroups_lt (gs : List Nat) (h : ∀ g ∈ gs, g < 65536) :
    fromGroups gs < 65536 ^ gs.length := by
  have := foldl_groups_lt 65536 gs h 0
  simpa [fromGroups] using this

/-- A successful dotted parse yields exactly four group values. -/
theorem parseDotted_shape (l : List Char) (vals : List Nat)
    (h : parseDotted l = some vals) : ∃ a b c d, vals = [a, b, c, d] := by
  rw [parseDotted] at h
  split at h
  · split at h
    · split at h
      · injection h with h2
        exact ⟨_, _, _, _, h2.symm⟩
      · exact absurd h (by simp)
    · exact absurd h (by simp)
  · exact absurd h (by simp)

/-- Four in-range octets recombine below two to the thirty-two. -/
theorem fromOctets_lt (vals : List Nat) (hshape : ∃ a b c d, vals = [a, b, c, d])
    (hall : ∀ v ∈ vals, v ≤ 255) : fromOctets vals < 2 ^ 32 := by
  obtain ⟨a, b, c, d, rfl⟩ := hshape
  have ha := hall a (by simp)
  have hb := hall b (by simp)
  have hc := hall c (by simp)
  have hd := hall d (by simp)
  simp only [fromOctets, List.foldl]
  omega

/-- A successful embedded IPv4 parse fits in thirty-two bits. -/
theorem parseIpv4Embedded_lt (l : List Char) (n : Nat)
    (h : parseIpv4Embedded l = some n) : n < 2 ^ 32 := by
  cases hd : parseDotted l with
  | none =>
      rw [parseIpv4Embedded, hd] at h
      exact absurd h (by simp)
  | some vals =>
      rw [parseIpv4Embedded, hd] at h
      have h1 : (if (vals.all fun v => decide (v ≤ 255)) = true
          then some (fromOctets vals) else none) = some n := h
      split_ifs at h1 with hall
      injection h1 with h2
      rw [← h2]
      exact fromOctets_lt vals (parseDotted_shape l vals hd)
        (fun v hv => by simpa using List.all_eq_true.mp hall v hv)

/-- Groups parsed left of a double colon are in range. -/
theorem parseHexGroupList_bound :
    ∀ (ps : List (List Char)) (gs : List Nat), parseHexGroupList ps = some gs →
      ∀ g ∈ gs, g < 65536 := by
  intro ps
  induction ps with
  | nil =>
      intro gs h g hg
      have : ([] : List Nat) = gs := by injection h
      rw [← this] at hg
      simp at hg
  | cons p rest ih =>
      intro gs h g hg
      rw [parseHexGroupList] at h
      cases hp : parseHexGroup p with
      | none => rw [hp] at h; exact absurd h (by simp)
      | some g0 =>
          rw [hp] at h
          cases hrest : parseHexGroupList rest with
          | none => rw [hrest] at h; exact absurd h (by simp)
          | some tl =>
              rw [hrest] at h
              have : g0 :: tl = gs := by injection h
              rw [← this] at hg
              rcases List.mem_cons.mp hg with rfl | hgt
              · exact parseHexGroup_lt p g hp
              · exact ih tl hrest g hgt

/-- Groups parsed right of a double colon, embedded IPv4 included, are in
range. -/
theorem parseTailGroups_bound :
    ∀ (ps : List (List Char)) (gs : List Nat), parseTailGroups ps = some gs →
      ∀ g ∈ gs, g < 65536 := by
  intro ps
  induction ps with
  | nil =>
      intro gs h g hg
      have : ([] : List Nat) = gs := by injection h
      rw [← this] at hg
      simp at hg
  | cons p rest ih =>
      intro gs h g hg
      cases rest with
      | nil =>
          rw [parseTailGroups] at h
          split_ifs at h with hdot
          · cases hemb : parseIpv4Embedded p with
            | none => rw [hemb] at h; exact absurd h (by simp)
            | some m =>
                rw [hemb] at h
                have hm := parseIpv4Embedded_lt p m hemb
                have : [m / 65536, m % 65536] = gs := by injection h
                rw [← this] at hg
                rcases List.mem_cons.mp hg with rfl | hg2
                · omega
                · rcases List.mem_cons.mp hg2 with rfl | hg3
                  · omega
                  · simp at hg3
          · cases hp : parseHexGroup p with
            | none => rw [hp] at h; exact absurd h (by simp)
            | some g0 =>
                rw [hp] at h
                have : [g0] = gs := by injection h
                rw [← this] at hg
                rcases List.mem_cons.mp hg with rfl | hg2
                · exact parseHexGroup_lt p g hp
                · simp at hg2
      | cons q qs =>
          rw [parseTailGroups] at h
          cases hp : parseHexGroup p with
          | none => rw [hp] at h; exact absurd h (by simp)
          | some g0 =>
              rw [hp] at h
              cases hrest : parseTailGroups (q :: qs) with
              | none => rw [hrest] at h; exact absurd h (by simp)
              | some tl =>
                  rw [hrest] at h
                  have : g0 :: tl = gs := by injection h
                  rw [← this] at hg
                  rcases List.mem_cons.mp hg with rfl | hgt
                  · exact parseHexGroup_lt p g hp
                  · exact ih tl hrest g hgt
          simp

/-- Any value parseIpv6Chars accepts fits in 128 bits. -/
theorem parseIpv6Chars_lt (l : List Char) (n : Nat) (h : parseIpv6Chars l = some n) :
    n < 2 ^ 128 := by
  have hp : (65536 : Nat) ^ 8 = 2 ^ 128 := by norm_num
  rw [parseIpv6Chars] at h
  cases hsp : splitAtFirstEmpty (splitOnChar ':' l) with
  | none =>
      rw [hsp] at h
      cases htg : parseTailGroups (splitOnChar ':' l) with
      | none => rw [htg] at h; exact absurd h (by simp)
      | some gs =>
          rw [htg] at h
          have h1 : (if gs.length = 8 then some (fromGroups gs) else none) = some n := h
          split_ifs at h1 with h8
          injection h1 with h2
          have hlt := fromGroups_lt gs (parseTailGroups_bound _ gs htg)
          rw [h8, hp] at hlt
          omega
  | some pr =>
      obtain ⟨before, after⟩ := pr
      rw [hsp] at h
      have hred : ((ipv6RightRaw before after).bind fun rightRaw =>
          (ipv6Right rightRaw).bind fun right => ipv6Assemble before right) = some n := h
      rw [Option.bind_eq_some] at hred
      obtain ⟨rightRaw, hrr, hred⟩ := hred
      rw [Option.bind_eq_some] at hred
      obtain ⟨right, hro, hred⟩ := hred
      rw [ipv6Assemble] at hred
      cases hlg : parseHexGroupList before with
      | none => rw [hlg] at hred; exact absurd hred (by simp)
      | some lgs =>
          rw [hlg] at hred
          cases htg : parseTailGroups right with
          | none => rw [htg] at hred; exact absurd hred (by simp)
          | some rgs =>
              rw [htg] at hred
              have h1 : (if lgs.length + rgs.length ≤ 7 then
                  some (fromGroups (lgs ++ List.replicate (8 - lgs.length - rgs.length) 0
                    ++ rgs)) else none) = some n := hred
              split_ifs at h1 with h7
              injection h1 with h2
              have hb : ∀ g ∈ lgs ++ List.replicate (8 - lgs.length - rgs.length) 0 ++ rgs,
                  g < 65536 := by
                intro g hg
                rcases List.mem_append.mp hg with hg1 | hg2
                · rcases List.mem_append.mp hg1 with hg3 | hg4
                  · exact parseHexGroupList_bound before lgs hlg g hg3
                  · have := List.eq_of_mem_replicate hg4
                    omega
                · exact parseTailGroups_bound right rgs htg g hg2
              have hlen : (lgs ++ List.replicate (8 - lgs.length - rgs.length) 0
                  ++ rgs).length = 8 := by
                simp only [List.length_append, List.length_replicate]
                omega
              have hlt := fromGroups_lt _ hb
              rw [hlen, hp] at hlt
              omega

/-- Every address parse accepts satisfies the CanonicalAddress invariant:
its bits fit the width of its family. -/
theorem parse_valid (s : String) (a : CanonicalAddress) (h : parse s = .ok a) :
    ValidAddress a := by
  rw [parse] at h
  cases hd : parseDotted (trimChars s.toList) with
  | some vals =>
      rw [hd] at h
      have h1 : (if (vals.all fun v => decide (v ≤ 255)) = true
          then Except.ok (CanonicalAddress.mk .IPv4 (fromOctets vals))
          else Except.error ParseError.OutOfRange) = Except.ok a := h
      split_ifs at h1 with hall
      injection h1 with h2
      rw [← h2, ValidAddress]
      show fromOctets vals < 2 ^ familyWidth .IPv4
      exact fromOctets_lt vals (parseDotted_shape _ vals hd)
        (fun v hv => by simpa using List.all_eq_true.mp hall v hv)
  | none =>
      rw [hd] at h
      by_cases hcol : (trimChars s.toList).contains ':' = true
      · rw [if_pos hcol] at h
        cases hv6 : parseIpv6Chars (trimChars s.toList) with
        | none => rw [hv6] at h; exact absurd h (by simp)
        | some n =>
            rw [hv6] at h
            injection h with h2
            rw [← h2, ValidAddress]
            show n < 2 ^ familyWidth .IPv6
            exact parseIpv6Chars_lt _ n hv6
      · rw [if_neg hcol] at h
        cases hint : parseIntChars (trimChars s.toList) with
        | none => rw [hint] at h; exact absurd h (by simp)
        | some n =>
            rw [hint] at h
            have h1 : (if n < 2 ^ 32 then Except.ok (CanonicalAddress.mk .IPv4 n)
                else if n < 2 ^ 128 then Except.ok (CanonicalAddress.mk .IPv6 n)
                else Except.error ParseError.OutOfRange) = Except.ok a := h
            split_ifs at h1 with h32 h128
            · injection h1 with h2
              rw [← h2, ValidAddress]
              exact h32
            · injection h1 with h2
              rw [← h2, ValidAddress]
              exact h128

/-- C6: round-trip.  Every address the Parser accepts, of either family, is
reproduced exactly by reparsing the Formatter's compressed textual form:
the reparse yields the same family and the same bits. -/
theorem c6_parse_format_roundtrip (s : String) (a : CanonicalAddress)
    (h : parse s = .ok a) : parse (comAddress a) = .ok a := by
  have hv := parse_valid s a h
  obtain ⟨fam, bits⟩ := a
  cases fam with
  | IPv4 => exact parse_comAddress_v4 bits (by simpa [ValidAddress, familyWidth] using hv)
  | IPv6 => exact parse_comAddress_v6 bits (by simpa [ValidAddress, familyWidth] using hv)

/-- C6 witness: the loopback literal round-trips through parse and the
compressed formatter. -/
theorem c6_parse_format_roundtrip_witness :
    parse (comAddress ⟨.IPv6, 1⟩) = .ok ⟨.IPv6, 1⟩ :=
  c6_parse_format_roundtrip "::1" ⟨.IPv6, 1⟩ (by rfl)
